import Mathlib

/-!
Shallow embedding of the plane-reconstruction pipeline in
src/ransac_detector.py, together with proofs of the specification
claims about it.

Arrays (numpy 2D arrays) are modelled as lists of rows over ℚ (float
arrays) or over ℕ (integer arrays).  The external collaborators
(open3d RANSAC plane fitting, cv2 connected-component labeling,
cv2 morphological closing) are modelled as oracle parameters, exactly
as the spec treats them (black-box collaborators called with specific
parameters).  Fallible operations return Option, where none models a
raised Python exception; loops are fuel-indexed, where none for every
fuel models divergence.
-/

namespace RansacSpec

/-- Two-dimensional float array (numpy array of rationals). -/
abbrev Grid := List (List ℚ)

/-- Two-dimensional integer array. -/
abbrev GridN := List (List Nat)

/-- Entry of a 2D array at row i, column j; none when out of range. -/
def ent (g : List (List α)) (i j : Nat) : Option α :=
  (g[i]?).bind fun row => row[j]?

theorem ent_map (f : α → β) (g : List (List α)) (i j : Nat) :
    ent (g.map (List.map f)) i j = (ent g i j).map f := by
  cases h : g[i]? <;> simp [ent, h]

/-- Boolean check that every entry of a 2D array satisfies p. -/
def gAll (g : List (List α)) (p : α → Bool) : Bool :=
  g.all fun row => row.all p

theorem gAll_ent {g : List (List α)} {p : α → Bool} (h : gAll g p = true)
    {i j : Nat} {x : α} (hx : ent g i j = some x) : p x = true := by
  simp only [ent, Option.bind_eq_some] at hx
  obtain ⟨row, hrow, hxr⟩ := hx
  have hmr : row ∈ g := List.getElem?_mem hrow
  have hmx : x ∈ row := List.getElem?_mem hxr
  simp only [gAll, List.all_eq_true] at h
  exact h row hmr x hmx

/-! ### DepthFilter: crop_depth_map -/

/-- Threshold argument of crop_depth_map: either a callable applied to
the flattened strictly positive inverse depths, or a fixed numeric
cutoff. -/
inductive Thresh
  | call (f : List ℚ → ℚ)
  | num (q : ℚ)

/-- Inverse-depth transform of a single entry, the vectorized
lambda x: 1 / x if x > 0 else x. -/
def invDepth (x : ℚ) : ℚ := if 0 < x then 1 / x else x

/-- Cutoff used by crop_depth_map: a callable threshold is applied to
the row-major flattening of the transformed array restricted to its
strictly positive values (arr[arr > 0]). -/
def cropCutoff (tmp : Grid) : Thresh → ℚ
  | .call f => f ((tmp.flatten).filter fun v => decide (0 < v))
  | .num q => q

/-- Number of nonzero entries, len(np.argwhere(ans)). -/
def countNZ (g : Grid) : Nat :=
  (g.map fun row => (row.filter fun v => decide (v ≠ 0)).length).sum

/-- Model of crop_depth_map: transform each entry by invDepth, compute
the cutoff, keep entries strictly below the cutoff and zero the rest,
and also return the number of nonzero entries of the result. -/
def crop_depth_map (depth_map : Grid) (threshold : Thresh) : Grid × Nat :=
  let tmp := depth_map.map (List.map invDepth)
  let t := cropCutoff tmp threshold
  let ans := tmp.map (List.map fun v => if v < t then v else 0)
  (ans, countNZ ans)

theorem crop_fst (d : Grid) (th : Thresh) :
    (crop_depth_map d th).1 =
      (d.map (List.map invDepth)).map
        (List.map fun v =>
          if v < cropCutoff (d.map (List.map invDepth)) th then v else 0) := rfl

/-- C6: crop_depth_map keeps the shape of its input; every positive
entry x becomes 1/x when 1/x is below the cutoff and 0 when 1/x is at
least the cutoff; non-positive entries (zeros, for a genuine
non-negative depth map) pass through unchanged; and the returned
integer is the number of nonzero entries of the output array. -/
theorem crop_depth_map_spec (d : Grid) (th : Thresh)
    (hpos : gAll d (fun x => decide (0 ≤ x)) = true) :
    ((crop_depth_map d th).1.length = d.length ∧
      ∀ i : Nat, ((crop_depth_map d th).1[i]?).map List.length =
        (d[i]?).map List.length) ∧
    (∀ i j x, ent d i j = some x → 0 < x →
      ent (crop_depth_map d th).1 i j =
        some (if 1 / x < cropCutoff (d.map (List.map invDepth)) th
          then 1 / x else 0)) ∧
    (∀ i j x, ent d i j = some x → x ≤ 0 →
      ent (crop_depth_map d th).1 i j = some x) ∧
    (crop_depth_map d th).2 = countNZ (crop_depth_map d th).1 := by
  set t := cropCutoff (d.map (List.map invDepth)) th with ht
  refine ⟨⟨by simp [crop_fst], fun i => ?_⟩, fun i j x hx hxpos => ?_,
    fun i j x hx hxnonpos => ?_, rfl⟩
  · rw [crop_fst, ← ht]
    cases h : d[i]? <;> simp [h]
  · rw [crop_fst, ← ht, ent_map, ent_map, hx]
    simp [invDepth, hxpos]
  · have hx0 : (0 : ℚ) ≤ x := of_decide_eq_true (gAll_ent hpos hx)
    have hxe : x = 0 := le_antisymm hxnonpos hx0
    rw [crop_fst, ← ht, ent_map, ent_map, hx]
    subst hxe
    by_cases h0 : (0 : ℚ) < t <;> simp [invDepth, h0]

/-- Witness for C6 at a concrete depth map and fixed cutoff. -/
theorem crop_depth_map_spec_w :
    gAll ([[2, 0]] : Grid) (fun x => decide (0 ≤ x)) = true ∧
    ∀ i j x, ent ([[2, 0]] : Grid) i j = some x → 0 < x →
      ent (crop_depth_map [[2, 0]] (Thresh.num 1)).1 i j =
        some (if 1 / x < cropCutoff (([[2, 0]] : Grid).map (List.map invDepth))
            (Thresh.num 1) then 1 / x else 0) :=
  ⟨by decide, (crop_depth_map_spec [[2, 0]] (Thresh.num 1) (by decide)).2.1⟩

/-! ### ComponentSplitter: get_connected_components -/

/-- Connected-component labeling collaborator (cv2.connectedComponents):
given the binarized image it returns the number of labels and the label
image.  The core treats it as a black box. -/
structure CCOracle where
  label : GridN → Nat × GridN

/-- Binarization np.uint8(np.where(depth_map > 0, 1, 0)). -/
def binarize (depth_map : Grid) : GridN :=
  depth_map.map (List.map fun v => if 0 < v then 1 else 0)

/-- Sum of all entries of an integer array (arr.sum()). -/
def gSum (g : GridN) : Nat := (g.map List.sum).sum

/-- Mask of the pixels carrying label i: np.where(result == i, 1, 0). -/
def labelMask (result : GridN) (i : Nat) : GridN :=
  result.map (List.map fun l => if l = i then 1 else 0)

/-- Elementwise product depth_map * map_arr of a float array with an
integer mask. -/
def gMulN (depth : Grid) (m : GridN) : Grid :=
  List.zipWith (fun dr mr =>
    List.zipWith (fun (dv : ℚ) (mv : Nat) => dv * mv) dr mr) depth m

/-- Model of get_connected_components: binarize, label, and keep for
each label in range(1, num) the component whose pixel count is at
least threshold * count_pixels, returning the pair of the depth values
restricted to the component and the component mask. -/
def get_connected_components (o : CCOracle) (depth_map : Grid)
    (threshold : ℚ) : List (Grid × GridN) :=
  let arr := binarize depth_map
  let countPixels := gSum arr
  let nr := o.label arr
  (List.range' 1 (nr.1 - 1)).filterMap fun i =>
    let m := labelMask nr.2 i
    if threshold * countPixels ≤ (gSum m : ℚ) then some (gMulN depth_map m, m)
    else none

/-- Boolean form of the labeling collaborator's background contract:
every pixel carrying a nonzero label is a foreground pixel of the
binarized input. -/
def ccBackground (labels arr : GridN) : Bool :=
  labels.enum.all fun p =>
    p.2.enum.all fun q => q.2 == 0 || decide (ent arr p.1 q.1 = some 1)

theorem mem_enum_of_getElem {l : List α} {i : Nat} {x : α}
    (h : l[i]? = some x) : (i, x) ∈ l.enum := by
  have he : (l.enum)[i]? = some (i, x) := by
    rw [List.enum, List.getElem?_enumFrom, h]
    simp
  exact List.getElem?_mem he

theorem ccBackground_ent {labels arr : GridN}
    (h : ccBackground labels arr = true) {i j l : Nat}
    (hl : ent labels i j = some l) (hl0 : l ≠ 0) : ent arr i j = some 1 := by
  simp only [ent, Option.bind_eq_some] at hl
  obtain ⟨row, hrow, hlr⟩ := hl
  have hmr : (i, row) ∈ labels.enum := mem_enum_of_getElem hrow
  have hmx : (j, l) ∈ row.enum := mem_enum_of_getElem hlr
  simp only [ccBackground, List.all_eq_true] at h
  have := h _ hmr _ hmx
  simpa [hl0] using this

theorem ent_labelMask {result : GridN} {n i j v : Nat}
    (h : ent (labelMask result n) i j = some v) (hv : v = 1) :
    ent result i j = some n := by
  rw [labelMask, ent_map] at h
  cases hl : ent result i j <;> rw [hl] at h
  · exact absurd h (by simp)
  · rename_i l
    simp only [Option.map_some', Option.some_inj] at h
    subst hv
    by_cases he : l = n
    · rw [he]
    · rw [if_neg he] at h
      exact absurd h one_ne_zero.symm

/-- C5: the masks returned by get_connected_components are pairwise
disjoint, and (given the labeling collaborator's contract that nonzero
labels sit on foreground pixels) their union is a subset of the set of
pixels with strictly positive depth. -/
theorem get_connected_components_spec (o : CCOracle) (d : Grid) (th : ℚ)
    (hb : ccBackground (o.label (binarize d)).2 (binarize d) = true) :
    List.Pairwise
      (fun a b => ∀ i j : Nat,
        ¬(ent a.2 i j = some 1 ∧ ent b.2 i j = some 1))
      (get_connected_components o d th) ∧
    ∀ m ∈ get_connected_components o d th, ∀ i j : Nat,
      ent m.2 i j = some 1 → ∃ x, ent d i j = some x ∧ 0 < x := by
  have hgcc : get_connected_components o d th =
      (List.range' 1 ((o.label (binarize d)).1 - 1)).filterMap fun a =>
        if th * (gSum (binarize d) : ℚ) ≤
            (gSum (labelMask (o.label (binarize d)).2 a) : ℚ)
        then some (gMulN d (labelMask (o.label (binarize d)).2 a),
          labelMask (o.label (binarize d)).2 a)
        else none := rfl
  have hsnd : ∀ a : Nat, ∀ b : Grid × GridN,
      (if th * (gSum (binarize d) : ℚ) ≤
          (gSum (labelMask (o.label (binarize d)).2 a) : ℚ)
        then some (gMulN d (labelMask (o.label (binarize d)).2 a),
          labelMask (o.label (binarize d)).2 a)
        else none) = some b →
      b.2 = labelMask (o.label (binarize d)).2 a := by
    intro a b hab
    by_cases hc : th * (gSum (binarize d) : ℚ) ≤
        (gSum (labelMask (o.label (binarize d)).2 a) : ℚ)
    · rw [if_pos hc, Option.some_inj] at hab
      exact hab ▸ rfl
    · rw [if_neg hc] at hab
      exact absurd hab (by simp)
  rw [hgcc]
  constructor
  · have hnd : List.Pairwise (fun a b : Nat => a ≠ b)
        (List.range' 1 ((o.label (binarize d)).1 - 1)) :=
      List.nodup_range' 1 ((o.label (binarize d)).1 - 1)
    refine List.Pairwise.filterMap _
      (fun a a' haa' b hbmem b' hbmem' => ?_) hnd
    intro i j hij
    have h1 : ent (o.label (binarize d)).2 i j = some a :=
      ent_labelMask ((hsnd a b hbmem) ▸ hij.1) rfl
    have h2 : ent (o.label (binarize d)).2 i j = some a' :=
      ent_labelMask ((hsnd a' b' hbmem') ▸ hij.2) rfl
    exact haa' (Option.some_inj.mp (h1.symm.trans h2))
  · intro m hm i j hmij
    rw [List.mem_filterMap] at hm
    obtain ⟨a, hamem, ha⟩ := hm
    have hlab : ent (o.label (binarize d)).2 i j = some a :=
      ent_labelMask ((hsnd a m ha) ▸ hmij) rfl
    have ha1 : 1 ≤ a := by
      obtain ⟨k, _, hk⟩ := List.mem_range'.mp hamem
      omega
    have harr : ent (binarize d) i j = some 1 :=
      ccBackground_ent hb hlab (by omega)
    rw [binarize, ent_map] at harr
    cases hd : ent d i j <;> rw [hd] at harr
    · exact absurd harr (by simp)
    · rename_i x
      refine ⟨x, rfl, ?_⟩
      by_contra hx
      simp only [Option.map_some', Option.some_inj, if_neg hx] at harr
      exact one_ne_zero harr.symm

/-- Concrete labeling oracle and depth map for the C5 witness. -/
def ccO : CCOracle := ⟨fun _ => (2, [[1, 0], [0, 0]])⟩

/-- Witness for C5 at a concrete depth map and labeling oracle. -/
theorem get_connected_components_spec_w :
    ccBackground ((ccO.label (binarize [[3, 0], [0, 0]])).2)
        (binarize [[3, 0], [0, 0]]) = true ∧
    ∀ m ∈ get_connected_components ccO [[3, 0], [0, 0]] (3 / 10),
      ∀ i j : Nat, ent m.2 i j = some 1 →
        ∃ x, ent ([[3, 0], [0, 0]] : Grid) i j = some x ∧ 0 < x :=
  ⟨by decide,
    (get_connected_components_spec ccO [[3, 0], [0, 0]] (3 / 10) (by decide)).2⟩

/-! ### MorphologicalCloser: close_map -/

/-- Morphological-closing collaborator (cv2.morphologyEx with
MORPH_CLOSE): given an image and a structuring element it returns the
closed image.  The core treats it as a black box. -/
structure CloseOracle where
  close : GridN → GridN → GridN

/-- np.uint8 conversion of an integer image (reduction mod 256). -/
def toU8 (g : GridN) : GridN := g.map (List.map fun v => v % 256)

/-- Elementwise np.logical_and of a Bool accumulator with an integer
image (a nonzero entry counts as true). -/
def gridAnd (acc : List (List Bool)) (cg : GridN) : List (List Bool) :=
  List.zipWith (fun ar cr =>
    List.zipWith (fun b v => b && decide (v ≠ 0)) ar cr) acc cg

/-- np.ones(shape), used as the initial accumulator of the reduce. -/
def onesB (r c : Nat) : List (List Bool) :=
  List.replicate r (List.replicate c true)

/-- Default kernels of close_map: a 100 x 10 all-ones structuring
element and its 10 x 100 transpose. -/
def defaultKernels : List GridN :=
  [List.replicate 100 (List.replicate 10 1),
    List.replicate 10 (List.replicate 100 1)]

/-- Model of close_map: close the uint8 image under every kernel and
combine the closings with reduce(np.logical_and, closings, ones). -/
def close_map (o : CloseOracle) (map_arr : GridN)
    (kernels : Option (List GridN)) : List (List Bool) :=
  let ks := kernels.getD defaultKernels
  let closings := ks.map fun k => o.close (toU8 map_arr) k
  closings.foldl gridAnd (onesB map_arr.length (map_arr.headD []).length)

/-- Rectangular shape of a 2D array. -/
def shapeIs (g : List (List α)) (r c : Nat) : Prop :=
  g.length = r ∧ ∀ row ∈ g, row.length = c

/-- Boolean check of shapeIs. -/
def shapeChk (g : List (List α)) (r c : Nat) : Bool :=
  g.length == r && g.all fun row => row.length == c

theorem shapeChk_iff {g : List (List α)} {r c : Nat} :
    shapeChk g r c = true ↔ shapeIs g r c := by
  simp [shapeChk, shapeIs]

theorem shapeIs_ent {g : List (List α)} {r c : Nat} (h : shapeIs g r c)
    {i j : Nat} (hi : i < r) (hj : j < c) : ∃ x, ent g i j = some x := by
  obtain ⟨hr, hrow⟩ := h
  have hig : i < g.length := hr ▸ hi
  have hjg : j < (g[i]).length := by
    rw [hrow (g[i]) (g.getElem_mem hig)]
    exact hj
  exact ⟨(g[i])[j], by
    simp [ent, List.getElem?_eq_getElem hig, List.getElem?_eq_getElem hjg]⟩

theorem ent_gridAnd {acc : List (List Bool)} {cg : GridN} {i j : Nat}
    {b : Bool} {v : Nat} (hb : ent acc i j = some b)
    (hv : ent cg i j = some v) :
    ent (gridAnd acc cg) i j = some (b && decide (v ≠ 0)) := by
  simp only [ent, Option.bind_eq_some] at hb hv
  obtain ⟨ra, hra, hrab⟩ := hb
  obtain ⟨rc, hrc, hrcv⟩ := hv
  simp [ent, gridAnd, List.getElem?_zipWith', hra, hrc, hrab, hrcv]

theorem gridAnd_shape {acc : List (List Bool)} {cg : GridN} {r c : Nat}
    (ha : shapeIs acc r c) (hc : shapeIs cg r c) :
    shapeIs (gridAnd acc cg) r c := by
  obtain ⟨har, harow⟩ := ha
  obtain ⟨hcr, hcrow⟩ := hc
  constructor
  · simp [gridAnd, har, hcr]
  · intro row hrow
    rw [gridAnd, List.mem_iff_getElem] at hrow
    obtain ⟨k, hk, hkeq⟩ := hrow
    rw [List.getElem_zipWith] at hkeq
    have hk1 : k < acc.length := by
      simp at hk
      omega
    have hk2 : k < cg.length := by
      simp at hk
      omega
    rw [← hkeq]
    simp [harow (acc[k]) (acc.getElem_mem hk1),
      hcrow (cg[k]) (cg.getElem_mem hk2)]

theorem optAny_true {o : Option α} {p : α → Bool} :
    o.any p = true ↔ ∃ v, o = some v ∧ p v = true := by
  cases o <;> simp [Option.any]

theorem foldl_gridAnd_ent :
    ∀ (cs : List GridN) (acc : List (List Bool)) (r c : Nat),
    shapeIs acc r c → (∀ cg ∈ cs, shapeIs cg r c) →
    ∀ i j : Nat, ∀ b : Bool, i < r → j < c → ent acc i j = some b →
    ent (cs.foldl gridAnd acc) i j =
      some (b && cs.all fun cg => (ent cg i j).any fun v => decide (v ≠ 0))
  | [], acc, r, c, _, _, i, j, b, _, _, hb => by simpa using hb
  | cg :: rest, acc, r, c, hacc, hcs, i, j, b, hi, hj, hb => by
    have hcg : shapeIs cg r c := hcs cg (List.mem_cons_self cg rest)
    obtain ⟨v, hv⟩ := shapeIs_ent hcg hi hj
    have hstep : ent (gridAnd acc cg) i j = some (b && decide (v ≠ 0)) :=
      ent_gridAnd hb hv
    have hrec := foldl_gridAnd_ent rest (gridAnd acc cg) r c
      (gridAnd_shape hacc hcg) (fun x hx => hcs x (List.mem_cons_of_mem _ hx))
      i j (b && decide (v ≠ 0)) hi hj hstep
    simp only [List.foldl_cons, hrec, List.all_cons, hv, Option.any_some,
      Bool.and_assoc]

theorem toU8_id {m : GridN}
    (hbin : gAll m (fun v => decide (v = 0 ∨ v = 1)) = true) : toU8 m = m := by
  simp only [gAll, List.all_eq_true] at hbin
  unfold toU8
  conv_rhs => rw [← List.map_id m]
  refine List.map_congr_left fun row hrow => ?_
  show List.map (fun v => v % 256) row = row
  conv_rhs => rw [← List.map_id row]
  refine List.map_congr_left fun v hv => ?_
  have := of_decide_eq_true (hbin row hrow v hv)
  rcases this with h0 | h1
  · simp [h0]
  · simp [h1]

/-- C7: for a binary mask and a non-empty kernel list whose closings
all keep the mask's shape, a pixel of close_map's result is set if and
only if every kernel's closing keeps that pixel nonzero (the reduce is
a conservative elementwise AND starting from an all-ones
accumulator). -/
theorem close_map_spec (o : CloseOracle) (m : GridN) (ks : List GridN)
    (hbin : gAll m (fun v => decide (v = 0 ∨ v = 1)) = true)
    (hks : ks ≠ [])
    (hsh : ∀ k ∈ ks, shapeChk (o.close m k) m.length (m.headD []).length = true) :
    ∀ i j : Nat, i < m.length → j < (m.headD []).length →
      (ent (close_map o m (some ks)) i j = some true ↔
        ∀ k ∈ ks, ∃ v, ent (o.close m k) i j = some v ∧ v ≠ 0) := by
  intro i j hi hj
  have hcm : close_map o m (some ks) =
      (ks.map fun k => o.close (toU8 m) k).foldl gridAnd
        (onesB m.length (m.headD []).length) := rfl
  rw [hcm, toU8_id hbin]
  have hones : shapeIs (onesB m.length (m.headD []).length) m.length
      (m.headD []).length := by
    constructor
    · simp [onesB]
    · intro row hrow
      rw [List.eq_of_mem_replicate hrow]
      simp
  have hone : ent (onesB m.length (m.headD []).length) i j = some true := by
    unfold onesB ent
    rw [List.getElem?_replicate, if_pos hi, Option.some_bind,
      List.getElem?_replicate, if_pos hj]
  have := foldl_gridAnd_ent (ks.map fun k => o.close m k)
    (onesB m.length (m.headD []).length) m.length (m.headD []).length hones
    (by
      intro cg hcg
      rw [List.mem_map] at hcg
      obtain ⟨k, hk, hkeq⟩ := hcg
      exact hkeq ▸ shapeChk_iff.mp (hsh k hk))
    i j true hi hj hone
  rw [this]
  simp only [Option.some_inj, Bool.true_and, List.all_map, List.all_eq_true,
    Function.comp]
  constructor
  · intro h k hk
    obtain ⟨v, hv, hvne⟩ := optAny_true.mp (h k hk)
    exact ⟨v, hv, of_decide_eq_true hvne⟩
  · intro h k hk
    obtain ⟨v, hv, hvne⟩ := h k hk
    exact optAny_true.mpr ⟨v, hv, decide_eq_true hvne⟩

/-- Concrete closing oracle (identity closing) for the C7 witness. -/
def clO : CloseOracle := ⟨fun g _ => g⟩

/-- Witness for C7 at a concrete mask and single kernel. -/
theorem close_map_spec_w :
    gAll ([[1, 0], [1, 1]] : GridN) (fun v => decide (v = 0 ∨ v = 1)) = true ∧
    ∀ i j : Nat, i < ([[1, 0], [1, 1]] : GridN).length →
      j < (([[1, 0], [1, 1]] : GridN).headD []).length →
      (ent (close_map clO [[1, 0], [1, 1]] (some [[[1]]])) i j = some true ↔
        ∀ k ∈ [([[1]] : GridN)], ∃ v,
          ent (clO.close [[1, 0], [1, 1]] k) i j = some v ∧ v ≠ 0) :=
  ⟨by decide, close_map_spec clO [[1, 0], [1, 1]] [[[1]]] (by decide)
    (by decide) (by decide)⟩

/-! ### LossScorer: loss_metric -/

/-- A 3D point of a point cloud (open3d points are 3-vectors). -/
abbrev Pt := ℚ × ℚ × ℚ

/-- Last coordinate x[-1] of a point: the z / depth axis. -/
def zlast (p : Pt) : ℚ := p.2.2

/-- Default point, used only in out-of-range getD of index formulas. -/
def pt0 : Pt := (0, 0, 0)

/-- Per-point error funcs[func][0] of the dispatch table; none models
the KeyError on an unsupported name. -/
def lmPer (func : String) : Option (ℚ → ℚ → ℚ) :=
  if func = "rmse" then some fun x y => ((x - y) * 1000) ^ 2
  else if func = "mae" then some fun x y => |(x - y) * 1000|
  else if func = "mse" then some fun x y => ((x - y) * 1000) ^ 2
  else none

/-- Aggregation funcs[func][1] of the dispatch table; the inner none
models the ZeroDivisionError when the true cloud is empty. -/
noncomputable def lmAgg (func : String) : Option (ℚ → Nat → Option ℝ) :=
  if func = "rmse" then
    some fun x n => if n = 0 then none else some (Real.sqrt ((x : ℝ) / n))
  else if func = "mae" then
    some fun x n => if n = 0 then none else some ((x : ℝ) / n)
  else if func = "mse" then
    some fun x n => if n = 0 then none else some ((x : ℝ) / n)
  else none

/-- Model of loss_metric: look the name up in the dispatch table, sum
the per-point error of the last coordinates over the pairwise zip of
the two clouds, and aggregate by the length of the true cloud. -/
noncomputable def loss_metric (true_pcd approx_pcd : List Pt)
    (func : String) : Option ℝ :=
  match lmPer func, lmAgg func with
  | some per, some agg =>
      agg (((true_pcd.zip approx_pcd).map fun pr =>
        per (zlast pr.1) (zlast pr.2)).sum) true_pcd.length
  | _, _ => none

theorem lmPer_rmse : lmPer "rmse" = some fun x y => ((x - y) * 1000) ^ 2 :=
  rfl

theorem lmPer_mae : lmPer "mae" = some fun x y => |(x - y) * 1000| := rfl

theorem lmPer_mse : lmPer "mse" = some fun x y => ((x - y) * 1000) ^ 2 := rfl

theorem lmAgg_rmse : lmAgg "rmse" = some fun (x : ℚ) (n : Nat) =>
    if n = 0 then none else some (Real.sqrt ((x : ℝ) / n)) := rfl

theorem lmAgg_mae : lmAgg "mae" = some fun (x : ℚ) (n : Nat) =>
    if n = 0 then none else some ((x : ℝ) / n) := rfl

theorem lmAgg_mse : lmAgg "mse" = some fun (x : ℚ) (n : Nat) =>
    if n = 0 then none else some ((x : ℝ) / n) := rfl

theorem loss_metric_eq {tp ap : List Pt} {func : String}
    {per : ℚ → ℚ → ℚ} {agg : ℚ → Nat → Option ℝ}
    (hper : lmPer func = some per) (hagg : lmAgg func = some agg) :
    loss_metric tp ap func =
      agg (((tp.zip ap).map fun pr => per (zlast pr.1) (zlast pr.2)).sum)
        tp.length := by
  unfold loss_metric
  rw [hper, hagg]

theorem zip_map_sum_eq (f : Pt → Pt → ℚ) :
    ∀ tp ap : List Pt,
    ((tp.zip ap).map fun pr => f pr.1 pr.2).sum =
      ((List.range (min tp.length ap.length)).map fun i =>
        f (tp.getD i pt0) (ap.getD i pt0)).sum
  | [], ap => by simp
  | a :: tp, [] => by simp
  | a :: tp, b :: ap => by
    have ih := zip_map_sum_eq f tp ap
    have hmin : min (a :: tp).length (b :: ap).length
        = min tp.length ap.length + 1 := by
      simp [Nat.succ_min_succ]
    have hr : (List.range (min (a :: tp).length (b :: ap).length)).map
        (fun i => f ((a :: tp).getD i pt0) ((b :: ap).getD i pt0)) =
        f a b :: (List.range (min tp.length ap.length)).map
          (fun i => f (tp.getD i pt0) (ap.getD i pt0)) := by
      rw [hmin, List.range_succ_eq_map, List.map_cons, List.map_map]
      refine congrArg₂ (· :: ·) rfl ?_
      refine List.map_congr_left fun i _ => ?_
      simp only [Function.comp_apply, List.getD_cons_succ]
    rw [List.zip_cons_cons, List.map_cons, List.sum_cons, ih, hr,
      List.sum_cons]

/-- C4 (amended): for a supported name and a non-empty true cloud,
loss_metric pairs the clouds in order only up to the shorter length
(the per-point sum ranges over indices below the minimum of the two
lengths) and returns a single scalar; it never raises on a length
mismatch by itself (the only failure is the empty true cloud, whose
aggregation divides by zero). -/
theorem loss_metric_pairing (tp ap : List Pt) (func : String)
    (hf : func = "rmse" ∨ func = "mae" ∨ func = "mse") (ht : tp ≠ []) :
    ∃ per agg, lmPer func = some per ∧ lmAgg func = some agg ∧
      loss_metric tp ap func =
        agg (((tp.zip ap).map fun pr =>
          per (zlast pr.1) (zlast pr.2)).sum) tp.length ∧
      (((tp.zip ap).map fun pr => per (zlast pr.1) (zlast pr.2)).sum =
        ((List.range (min tp.length ap.length)).map fun i =>
          per (zlast (tp.getD i pt0)) (zlast (ap.getD i pt0))).sum) ∧
      ∃ v : ℝ, loss_metric tp ap func = some v := by
  have hn : tp.length ≠ 0 := fun h => ht (List.length_eq_zero.mp h)
  rcases hf with hf | hf | hf <;> subst hf
  · exact ⟨_, _, lmPer_rmse, lmAgg_rmse,
      loss_metric_eq lmPer_rmse lmAgg_rmse,
      zip_map_sum_eq (fun p q => ((zlast p - zlast q) * 1000) ^ 2) tp ap,
      by rw [loss_metric_eq lmPer_rmse lmAgg_rmse, if_neg hn]
         exact ⟨_, rfl⟩⟩
  · exact ⟨_, _, lmPer_mae, lmAgg_mae,
      loss_metric_eq lmPer_mae lmAgg_mae,
      zip_map_sum_eq (fun p q => |(zlast p - zlast q) * 1000|) tp ap,
      by rw [loss_metric_eq lmPer_mae lmAgg_mae, if_neg hn]
         exact ⟨_, rfl⟩⟩
  · exact ⟨_, _, lmPer_mse, lmAgg_mse,
      loss_metric_eq lmPer_mse lmAgg_mse,
      zip_map_sum_eq (fun p q => ((zlast p - zlast q) * 1000) ^ 2) tp ap,
      by rw [loss_metric_eq lmPer_mse lmAgg_mse, if_neg hn]
         exact ⟨_, rfl⟩⟩

/-- C4 counterexample: with an empty true cloud and a non-empty approx
cloud (a length mismatch) and the supported name rmse, loss_metric does
not return a scalar: the aggregation divides by zero. -/
theorem loss_metric_pairing_cex :
    loss_metric ([] : List Pt) [pt0] "rmse" = none := rfl

/-- Witness for C4 at concrete clouds of unequal lengths. -/
theorem loss_metric_pairing_w :
    ([pt0] : List Pt) ≠ [] ∧
    ∃ per agg, lmPer "mae" = some per ∧ lmAgg "mae" = some agg ∧
      loss_metric [pt0] ([] : List Pt) "mae" =
        agg (((([pt0] : List Pt).zip ([] : List Pt)).map fun pr =>
          per (zlast pr.1) (zlast pr.2)).sum) ([pt0] : List Pt).length ∧
      (((([pt0] : List Pt).zip ([] : List Pt)).map fun pr =>
          per (zlast pr.1) (zlast pr.2)).sum =
        ((List.range (min ([pt0] : List Pt).length
            ([] : List Pt).length)).map fun i =>
          per (zlast (([pt0] : List Pt).getD i pt0))
            (zlast (([] : List Pt).getD i pt0))).sum) ∧
      ∃ v : ℝ, loss_metric [pt0] ([] : List Pt) "mae" = some v :=
  ⟨by decide, loss_metric_pairing [pt0] [] "mae" (by simp) (by simp)⟩

/-- C8 (amended): an unsupported function name fails with a lookup miss
and never yields a value; each of the three supported names returns
normally whenever the true cloud is non-empty (with an empty true cloud
even a supported name fails, by division by zero). -/
theorem loss_metric_lookup (tp ap : List Pt) (func : String) :
    (¬(func = "rmse" ∨ func = "mae" ∨ func = "mse") →
      loss_metric tp ap func = none) ∧
    ((func = "rmse" ∨ func = "mae" ∨ func = "mse") → tp ≠ [] →
      ∃ v : ℝ, loss_metric tp ap func = some v) := by
  constructor
  · intro hbad
    push_neg at hbad
    obtain ⟨h1, h2, h3⟩ := hbad
    unfold loss_metric lmPer
    rw [if_neg h1, if_neg h2, if_neg h3]
  · intro hf ht
    obtain ⟨per, agg, _, _, _, _, v, hv⟩ :=
      loss_metric_pairing tp ap func hf ht
    exact ⟨v, hv⟩

/-- C8 counterexample: the supported name mse does not return normally
on every pair of clouds: with both clouds empty the aggregation
divides by zero and no value is returned. -/
theorem loss_metric_lookup_cex :
    loss_metric ([] : List Pt) [] "mse" = none := rfl

/-- Witness for C8 at a concrete unsupported and a concrete supported
name. -/
theorem loss_metric_lookup_w :
    loss_metric [pt0] [pt0] "median" = none ∧
    ∃ v : ℝ, loss_metric [pt0] [pt0] "mse" = some v :=
  ⟨(loss_metric_lookup [pt0] [pt0] "median").1 (by decide),
    (loss_metric_lookup [pt0] [pt0] "mse").2 (by simp) (by decide)⟩

theorem zip_self (l : List α) : l.zip l = l.map fun a => (a, a) := by
  induction l with
  | nil => rfl
  | cons a t ih => simp [List.zip_cons_cons, ih]

/-- C9 (amended): comparing a non-empty cloud to itself under rmse
yields exactly 0; for the empty cloud the aggregation divides by zero
instead of returning 0. -/
theorem loss_metric_self (p : List Pt) (hp : p ≠ []) :
    loss_metric p p "rmse" = some 0 := by
  have hn : p.length ≠ 0 := fun h => hp (List.length_eq_zero.mp h)
  have hsum : ((p.zip p).map fun pr =>
      ((zlast pr.1 - zlast pr.2) * 1000) ^ 2).sum = 0 := by
    apply List.sum_eq_zero
    intro x hx
    rw [List.mem_map] at hx
    obtain ⟨pr, hpr, hxeq⟩ := hx
    rw [zip_self, List.mem_map] at hpr
    obtain ⟨a, _, haeq⟩ := hpr
    rw [← hxeq, ← haeq]
    simp [zlast]
  rw [loss_metric_eq lmPer_rmse lmAgg_rmse]
  simp only [hsum, if_neg hn]
  simp [Real.sqrt_zero]

/-- C9 counterexample: comparing the empty cloud to itself under rmse
does not return 0: the aggregation divides by zero and fails. -/
theorem loss_metric_self_cex :
    loss_metric ([] : List Pt) [] "rmse" ≠ some 0 := by
  intro h
  exact Option.noConfusion ((rfl : loss_metric ([] : List Pt) [] "rmse"
    = none) ▸ h)

/-- Witness for C9 at a concrete one-point cloud. -/
theorem loss_metric_self_w :
    ([pt0] : List Pt) ≠ [] ∧ loss_metric [pt0] [pt0] "rmse" = some 0 :=
  ⟨by decide, loss_metric_self [pt0] (by decide)⟩

/-! ### PlaneExtractor: extract_planes_con -/

/-- Plane coefficients (a, b, c, d) of ax + by + cz + d = 0. -/
abbrev Plane := ℚ × ℚ × ℚ × ℚ

/-- RANSAC plane-fitting collaborator (_get_plane_from_pcd): from the
masked depth map it returns a plane model and the inlier indices into
the point cloud built from that masked depth map.  The core treats it
as a black box; one oracle models one fixed run of the internally
randomized fitter. -/
structure FitOracle where
  fit : Grid → Plane × List Nat

/-- Row-major positions of the nonzero entries of an array, in the
order produced by np.where(curr_map_arr). -/
def nonzeroPos (g : Grid) : List (Nat × Nat) :=
  (g.enum.map fun p =>
    p.2.enum.filterMap fun q =>
      if q.2 ≠ 0 then some (p.1, q.1) else none).flatten

/-- Elementwise product of two float arrays, depth_map * curr_map_arr. -/
def gMul (a b : Grid) : Grid :=
  List.zipWith (List.zipWith fun (x : ℚ) (y : ℚ) => x * y) a b

/-- Single-entry assignment arr[i, j] = v. -/
def gSet (g : Grid) (i j : Nat) (v : ℚ) : Grid :=
  g.set i ((g.getD i []).set j v)

/-- Fancy assignment arr[x, y] = v over a list of positions. -/
def gSets (g : Grid) (ps : List (Nat × Nat)) (v : ℚ) : Grid :=
  ps.foldl (fun a p => gSet a p.1 p.2 v) g

/-- np.zeros(shape). -/
def gZeros (r c : Nat) : Grid := List.replicate r (List.replicate c 0)

/-- Fancy indexing ls[0][inliers], ls[1][inliers] on the position list
of np.where: every index is looked up in order; none models the
IndexError raised when an index is out of range. -/
def lookups (ls : List (Nat × Nat)) : List Nat → Option (List (Nat × Nat))
  | [] => some []
  | k :: ks =>
    match ls[k]?, lookups ls ks with
    | some p, some ps => some (p :: ps)
    | _, _ => none

/-- One pass of the extraction loop body: fit a plane on the masked
depth map, look the inlier indices up in np.where(curr_map_arr), zero
those pixels in the working mask, record them in a fresh all-zeros
mask, and return the inlier count. -/
def epcStep (o : FitOracle) (depth curr : Grid) :
    Option (Grid × Plane × Grid × Nat) :=
  match lookups (nonzeroPos curr) (o.fit (gMul depth curr)).2 with
  | none => none
  | some pts =>
      some (gSets (gZeros curr.length (curr.headD []).length) pts 1,
        (o.fit (gMul depth curr)).1, gSets curr pts 0,
        (o.fit (gMul depth curr)).2.length)

/-- Python int() truncation toward zero of a rational: T-rounding
division of the numerator by the denominator. -/
def truncQ (q : ℚ) : Int := q.num.tdiv q.den

/-- Fuel-indexed while loop of extract_planes_con: while
count >= stop, run the body and append its (mask, plane) pair.  The
value none models both divergence (none for every fuel) and a raised
IndexError. -/
def epcLoop (o : FitOracle) (depth : Grid) (stop : Int) :
    Nat → Grid → Int → List (Grid × Plane) → Option (List (Grid × Plane))
  | 0, _, _, _ => none
  | fuel + 1, curr, count, acc =>
    if stop ≤ count then
      (epcStep o depth curr).bind fun st =>
        epcLoop o depth stop fuel st.2.2.1 (count - st.2.2.2)
          (acc ++ [(st.1, st.2.1)])
    else some acc

/-- Model of extract_planes_con: take a value copy of the caller's
mask as the working mask, set count = start_size, and run the loop
with the stopping bound int(start_size * t). -/
def extract_planes_con (o : FitOracle) (map_arr depth_map : Grid)
    (start_size : Int) (t : ℚ) (fuel : Nat) :
    Option (List (Grid × Plane)) :=
  epcLoop o depth_map (truncQ ((start_size : ℚ) * t)) fuel map_arr
    start_size []

theorem epcLoop_zero (o : FitOracle) (d : Grid) (stop : Int) (curr : Grid)
    (count : Int) (acc : List (Grid × Plane)) :
    epcLoop o d stop 0 curr count acc = none := rfl

theorem epcLoop_succ (o : FitOracle) (d : Grid) (stop : Int) (fuel : Nat)
    (curr : Grid) (count : Int) (acc : List (Grid × Plane)) :
    epcLoop o d stop (fuel + 1) curr count acc =
      if stop ≤ count then
        (epcStep o d curr).bind fun st =>
          epcLoop o d stop fuel st.2.2.1 (count - st.2.2.2)
            (acc ++ [(st.1, st.2.1)])
      else some acc := rfl

theorem epcLoop_len (o : FitOracle) (d : Grid) (stop : Int) :
    ∀ (fuel : Nat) (curr : Grid) (count : Int)
      (acc l : List (Grid × Plane)),
      epcLoop o d stop fuel curr count acc = some l →
      acc.length ≤ l.length
  | 0, curr, count, acc, l, h => by
    rw [epcLoop_zero] at h
    exact absurd h (by simp)
  | fuel + 1, curr, count, acc, l, h => by
    rw [epcLoop_succ] at h
    by_cases hc : stop ≤ count
    · rw [if_pos hc] at h
      cases hs : epcStep o d curr with
      | none =>
        rw [hs, Option.none_bind] at h
        exact absurd h (by simp)
      | some st =>
        rw [hs, Option.some_bind] at h
        have := epcLoop_len o d stop fuel st.2.2.1 (count - st.2.2.2)
          (acc ++ [(st.1, st.2.1)]) l h
        simp only [List.length_append, List.length_cons,
          List.length_nil] at this
        omega
    · rw [if_neg hc, Option.some_inj] at h
      exact h ▸ le_refl _

theorem truncQ_zero : truncQ 0 = 0 := rfl

theorem truncQ_intCast (z : Int) : truncQ (z : ℚ) = z := by
  unfold truncQ
  rw [Rat.num_intCast, Rat.den_intCast, Nat.cast_one]
  exact Int.tdiv_one z

theorem truncQ_nonneg_floor (q : ℚ) (h : 0 ≤ q) : truncQ q = ⌊q⌋ := by
  unfold truncQ
  rw [Rat.floor_def]
  exact Int.tdiv_eq_ediv (Rat.num_nonneg.mpr h)
    (Int.ofNat_nonneg q.den)

/-- C1 (amended): with start_size = 0 the loop condition of
extract_planes_con is true immediately (0 >= int(0 * t) = 0 for every
t), so the body executes at least once and a normally-returning run
yields a list with at least one (mask, plane) pair — never the empty
list. -/
theorem extract_planes_start0 (o : FitOracle) (m d : Grid) (t : ℚ)
    (fuel : Nat) (l : List (Grid × Plane))
    (h : extract_planes_con o m d 0 t fuel = some l) :
    truncQ (((0 : Int) : ℚ) * t) ≤ 0 ∧ 1 ≤ l.length := by
  have hstop : truncQ (((0 : Int) : ℚ) * t) = 0 := by
    rw [Int.cast_zero, zero_mul, truncQ_zero]
  refine ⟨le_of_eq hstop, ?_⟩
  unfold extract_planes_con at h
  rw [hstop] at h
  cases fuel with
  | zero =>
    rw [epcLoop_zero] at h
    exact absurd h (by simp)
  | succ fuel =>
    rw [epcLoop_succ, if_pos (le_refl (0 : Int))] at h
    cases hs : epcStep o d m with
    | none =>
      rw [hs, Option.none_bind] at h
      exact absurd h (by simp)
    | some st =>
      rw [hs, Option.some_bind] at h
      have := epcLoop_len o d 0 fuel st.2.2.1 (0 - st.2.2.2)
        ([] ++ [(st.1, st.2.1)]) l h
      simpa using this

/-- Fitting oracle used in concrete runs: one inlier at index 0. -/
def fitO1 : FitOracle := ⟨fun _ => ((0, 0, 0, 1), [0])⟩

/-- Fitting oracle used in concrete runs: an empty inlier list. -/
def fitO0 : FitOracle := ⟨fun _ => ((0, 0, 0, 1), [])⟩

theorem truncQ_zero_mul (t : ℚ) : truncQ (((0 : Int) : ℚ) * t) = 0 := by
  rw [Int.cast_zero, zero_mul, truncQ_zero]

/-- Concrete run used by the C1 counterexample and witness. -/
theorem run_fitO1_start0 :
    extract_planes_con fitO1 [[1]] [[5]] 0 1 3 =
      some [([[1]], (0, 0, 0, 1))] := by
  unfold extract_planes_con
  rw [truncQ_zero_mul]
  decide

/-- C1 counterexample: with start_size = 0 on a one-pixel mask, a run
whose fitter removes that pixel terminates with a one-element result
list, not the empty list the claim demands; the loop condition
0 >= int(0 * t) = 0 held at entry. -/
theorem extract_planes_start0_cex :
    extract_planes_con fitO1 [[1]] [[5]] 0 1 3 ≠ some [] ∧
    (truncQ (((0 : Int) : ℚ) * 1) ≤ 0) := by
  refine ⟨?_, le_of_eq (truncQ_zero_mul 1)⟩
  rw [run_fitO1_start0]
  simp

/-- Witness for the amended C1 at a concrete terminating run. -/
theorem extract_planes_start0_w :
    ∃ l, extract_planes_con fitO1 [[1]] [[5]] 0 1 3 = some l ∧
      1 ≤ l.length := by
  refine ⟨[([[1]], (0, 0, 0, 1))], run_fitO1_start0, ?_⟩
  exact (extract_planes_start0 fitO1 [[1]] [[5]] 1 3
    [([[1]], (0, 0, 0, 1))] run_fitO1_start0).2

theorem lookups_total (ls : List (Nat × Nat)) :
    ∀ ks : List Nat, (∀ k ∈ ks, k < ls.length) →
      ∃ pts, lookups ls ks = some pts
  | [], _ => ⟨[], rfl⟩
  | k :: ks, h => by
    obtain ⟨pts, hpts⟩ := lookups_total ls ks
      (fun x hx => h x (List.mem_cons_of_mem _ hx))
    have hk : k < ls.length := h k (List.mem_cons_self k ks)
    refine ⟨ls[k] :: pts, ?_⟩
    unfold lookups
    rw [List.getElem?_eq_getElem hk, hpts]

theorem epcStep_empty {o : FitOracle} {d curr : Grid}
    (hz : (o.fit (gMul d curr)).2 = []) :
    epcStep o d curr =
      some (gZeros curr.length (curr.headD []).length,
        (o.fit (gMul d curr)).1, curr, 0) := by
  unfold epcStep
  rw [hz]
  rfl

theorem epcLoop_stuck (o : FitOracle) (d : Grid) (stop : Int)
    (count : Int) (hz : ∀ g, (o.fit g).2 = []) (hc : stop ≤ count) :
    ∀ (fuel : Nat) (curr : Grid) (acc : List (Grid × Plane)),
      epcLoop o d stop fuel curr count acc = none
  | 0, curr, acc => epcLoop_zero o d stop curr count acc
  | fuel + 1, curr, acc => by
    rw [epcLoop_succ, if_pos hc, epcStep_empty (hz (gMul d curr)),
      Option.some_bind]
    have hcnt : count - ((0 : Nat) : Int) = count := by simp
    rw [hcnt]
    exact epcLoop_stuck o d stop count hz hc fuel curr _

/-- C2: conjunct 1 — the stopping bound int(start_size * t) equals
floor(start_size * t) whenever start_size and t are nonnegative;
conjunct 2 — a loop call with fuel left returns its accumulator
unchanged exactly when count < int(start_size * t), i.e. the loop
continues exactly while count >= int(start_size * t); conjunct 3 —
with t = 1 and start_size >= 1, if the first fit removes at least one
inlier (all indices valid) the function returns after exactly one
iteration; conjunct 4 — if every fit removes zero inliers and the
guard holds initially, the loop never terminates: the run is none for
every fuel. -/
theorem extract_planes_guard (o : FitOracle) (m d : Grid) (ss : Int)
    (t : ℚ) :
    (0 ≤ ss → 0 ≤ t → truncQ ((ss : ℚ) * t) = ⌊(ss : ℚ) * t⌋) ∧
    (∀ (fuel : Nat) (curr : Grid) (count : Int)
        (acc : List (Grid × Plane)),
      (epcLoop o d (truncQ ((ss : ℚ) * t)) (fuel + 1) curr count acc =
        some acc) ↔ count < truncQ ((ss : ℚ) * t)) ∧
    ((o.fit (gMul d m)).2 ≠ [] →
      (∀ k ∈ (o.fit (gMul d m)).2, k < (nonzeroPos m).length) →
      1 ≤ ss → ∀ fuel : Nat, 2 ≤ fuel →
      ∃ pr, extract_planes_con o m d ss 1 fuel = some [pr]) ∧
    ((∀ g, (o.fit g).2 = []) → truncQ ((ss : ℚ) * t) ≤ ss →
      ∀ fuel : Nat, extract_planes_con o m d ss t fuel = none) := by
  refine ⟨fun hss ht => ?_, fun fuel curr count acc => ?_,
    fun hne hval hss fuel hfuel => ?_, fun hz hinit fuel => ?_⟩
  · exact truncQ_nonneg_floor _ (mul_nonneg (by exact_mod_cast hss) ht)
  · constructor
    · intro h
      by_contra hlt
      push_neg at hlt
      rw [epcLoop_succ, if_pos hlt] at h
      cases hs : epcStep o d curr with
      | none =>
        rw [hs, Option.none_bind] at h
        exact absurd h (by simp)
      | some st =>
        rw [hs, Option.some_bind] at h
        have := epcLoop_len o d (truncQ ((ss : ℚ) * t)) fuel st.2.2.1
          (count - st.2.2.2) (acc ++ [(st.1, st.2.1)]) acc h
        simp only [List.length_append, List.length_cons,
          List.length_nil] at this
        omega
    · intro hlt
      rw [epcLoop_succ, if_neg (by omega)]
  · obtain ⟨k, rfl⟩ : ∃ k, fuel = k + 2 := ⟨fuel - 2, by omega⟩
    obtain ⟨pts, hpts⟩ :=
      lookups_total (nonzeroPos m) (o.fit (gMul d m)).2 hval
    have hstop : truncQ ((ss : ℚ) * 1) = ss := by
      rw [mul_one, truncQ_intCast]
    have hn1 : (1 : Int) ≤ ((o.fit (gMul d m)).2.length : Int) := by
      exact_mod_cast List.length_pos.mpr hne
    have hstep : epcStep o d m =
        some (gSets (gZeros m.length (m.headD []).length) pts 1,
          (o.fit (gMul d m)).1, gSets m pts 0,
          (o.fit (gMul d m)).2.length) := by
      unfold epcStep
      rw [hpts]
    refine ⟨(gSets (gZeros m.length (m.headD []).length) pts 1,
      (o.fit (gMul d m)).1), ?_⟩
    show epcLoop o d (truncQ ((ss : ℚ) * 1)) (k + 2) m ss [] = _
    rw [hstop, epcLoop_succ, if_pos (le_refl ss), hstep]
    simp only [Option.some_bind]
    rw [epcLoop_succ, if_neg (by omega), List.nil_append]
  · exact epcLoop_stuck o d (truncQ ((ss : ℚ) * t)) ss hz hinit fuel m []

/-- Witness for C2 at concrete runs: a one-inlier fitter with t = 1
stops after exactly one iteration, and a zero-inlier fitter never
terminates (none at every fuel, here fuel 7). -/
theorem extract_planes_guard_w :
    (∃ pr, extract_planes_con fitO1 [[1]] [[5]] 1 1 2 = some [pr]) ∧
    extract_planes_con fitO0 [[1]] [[5]] 1 1 7 = none :=
  ⟨(extract_planes_guard fitO1 [[1]] [[5]] 1 1).2.2.1 (by decide)
      (by decide) (by decide) 2 (by decide),
    (extract_planes_guard fitO0 [[1]] [[5]] 1 1).2.2.2
      (fun g => rfl)
      (le_of_eq (by rw [mul_one, truncQ_intCast])) 7⟩

theorem lookups_mem {ls : List (Nat × Nat)} :
    ∀ {ks : List Nat} {pts : List (Nat × Nat)},
      lookups ls ks = some pts → ∀ p ∈ pts, p ∈ ls
  | [], pts, h => by
    unfold lookups at h
    rw [Option.some_inj] at h
    subst h
    intro p hp
    exact absurd hp (List.not_mem_nil p)
  | k :: ks, pts, h => by
    unfold lookups at h
    cases hk : ls[k]? with
    | none => rw [hk] at h; exact absurd h (by simp)
    | some q =>
      cases hrest : lookups ls ks with
      | none => rw [hk, hrest] at h; exact absurd h (by simp)
      | some qs =>
        rw [hk, hrest, Option.some_inj] at h
        subst h
        intro p hp
        rcases List.mem_cons.mp hp with hpq | hpqs
        · exact hpq ▸ List.getElem?_mem hk
        · exact lookups_mem hrest p hpqs

theorem nonzeroPos_ent {g : Grid} {p : Nat × Nat}
    (h : p ∈ nonzeroPos g) : ∃ v, ent g p.1 p.2 = some v ∧ v ≠ 0 := by
  unfold nonzeroPos at h
  rw [List.mem_flatten] at h
  obtain ⟨sub, hsub, hp⟩ := h
  rw [List.mem_map] at hsub
  obtain ⟨pr, hpr, hpreq⟩ := hsub
  rw [← hpreq, List.mem_filterMap] at hp
  obtain ⟨q, hq, hqeq⟩ := hp
  by_cases hv : q.2 ≠ 0
  · rw [if_pos hv, Option.some_inj] at hqeq
    obtain ⟨i, row⟩ := pr
    obtain ⟨j, v⟩ := q
    have hrow : g[i]? = some row := by
      have := List.mk_mem_enum_iff_getElem?.mp hpr
      exact this
    have hval : row[j]? = some v := by
      have := List.mk_mem_enum_iff_getElem?.mp hq
      exact this
    refine ⟨v, ?_, hv⟩
    rw [← hqeq]
    simp [ent, hrow, hval]
  · rw [if_neg hv] at hqeq
    exact absurd hqeq (by simp)

theorem ent_gSet_ne {g : Grid} {i j i' j' : Nat} {v : ℚ}
    (h : ¬(i = i' ∧ j = j')) :
    ent (gSet g i j v) i' j' = ent g i' j' := by
  unfold gSet ent
  by_cases hi : i = i'
  · subst hi
    have hj : j ≠ j' := fun e => h ⟨rfl, e⟩
    by_cases hlen : i < g.length
    · rw [List.getElem?_set_self hlen, List.getElem?_eq_getElem hlen]
      simp only [Option.some_bind]
      rw [List.getElem?_set_ne hj]
      have : g.getD i [] = g[i] := by
        rw [List.getD_eq_getElem?_getD, List.getElem?_eq_getElem hlen]
        rfl
      rw [this]
    · rw [List.set_eq_of_length_le (by omega)]
  · rw [List.getElem?_set_ne hi]

theorem ent_gSet_write {g : Grid} {i j : Nat} {w v : ℚ}
    (h : ent g i j = some w) : ent (gSet g i j v) i j = some v := by
  unfold ent at h ⊢
  unfold gSet
  cases hrow : g[i]? with
  | none => rw [hrow] at h; exact absurd h (by simp)
  | some row =>
    rw [hrow] at h
    simp only [Option.some_bind] at h
    have hlen : i < g.length := by
      by_contra hc
      rw [List.getElem?_eq_none (by omega)] at hrow
      exact Option.noConfusion hrow
    rw [List.getElem?_set_self hlen]
    simp only [Option.some_bind]
    have hjlen : j < row.length := by
      by_contra hc
      rw [List.getElem?_eq_none (by omega)] at h
      exact Option.noConfusion h
    have hgd : g.getD i [] = row := by
      rw [List.getD_eq_getElem?_getD, hrow]
      rfl
    rw [hgd, List.getElem?_set_self (by omega)]

theorem ent_gSet_ex {g : Grid} {i j a b : Nat} {v : ℚ}
    (h : ∃ w, ent g a b = some w) :
    ∃ w, ent (gSet g i j v) a b = some w := by
  obtain ⟨w, hw⟩ := h
  by_cases he : i = a ∧ j = b
  · obtain ⟨rfl, rfl⟩ := he
    exact ⟨v, ent_gSet_write hw⟩
  · exact ⟨w, (ent_gSet_ne he).trans hw⟩

theorem ent_gSets_not_mem {v : ℚ} :
    ∀ {ps : List (Nat × Nat)} {g : Grid} {q : Nat × Nat}, q ∉ ps →
      ent (gSets g ps v) q.1 q.2 = ent g q.1 q.2
  | [], g, q, _ => rfl
  | p :: ps, g, q, h => by
    have hq1 : q ∉ ps := fun hc => h (List.mem_cons_of_mem p hc)
    have hq2 : q ≠ p := fun hc => h (hc ▸ List.mem_cons_self p ps)
    show ent (gSets (gSet g p.1 p.2 v) ps v) q.1 q.2 = _
    rw [ent_gSets_not_mem hq1]
    exact ent_gSet_ne fun hc => hq2 (Prod.ext hc.1.symm hc.2.symm)

theorem ent_gSets_mem {v : ℚ} :
    ∀ {ps : List (Nat × Nat)} {g : Grid} {q : Nat × Nat}, q ∈ ps →
      (∃ w, ent g q.1 q.2 = some w) →
      ent (gSets g ps v) q.1 q.2 = some v
  | [], g, q, h, _ => absurd h (List.not_mem_nil q)
  | p :: ps, g, q, h, hex => by
    show ent (gSets (gSet g p.1 p.2 v) ps v) q.1 q.2 = some v
    by_cases hq : q ∈ ps
    · exact ent_gSets_mem hq (ent_gSet_ex hex)
    · have hqp : q = p := by
        rcases List.mem_cons.mp h with h1 | h2
        · exact h1
        · exact absurd h2 hq
      subst hqp
      rw [ent_gSets_not_mem hq]
      obtain ⟨w, hw⟩ := hex
      exact ent_gSet_write hw

theorem ent_gZeros {r c a b : Nat} :
    ent (gZeros r c) a b = if a < r ∧ b < c then some 0 else none := by
  unfold gZeros ent
  rw [List.getElem?_replicate]
  by_cases ha : a < r
  · rw [if_pos ha]
    simp only [Option.some_bind]
    rw [List.getElem?_replicate]
    by_cases hb : b < c
    · rw [if_pos hb, if_pos ⟨ha, hb⟩]
    · rw [if_neg hb, if_neg (fun hc => hb hc.2)]
  · rw [if_neg ha]
    simp only [Option.none_bind]
    rw [if_neg (fun hc => ha hc.1)]

theorem epcStep_inv {o : FitOracle} {d curr ans : Grid} {pl : Plane}
    {curr' : Grid} {n : Nat}
    (h : epcStep o d curr = some (ans, pl, curr', n)) :
    (∀ a b : Nat, ent ans a b = some 1 →
      ∃ v, ent curr a b = some v ∧ v ≠ 0 ∧ ent curr' a b = some 0) ∧
    (∀ (a b : Nat) (w : ℚ), ent curr' a b = some w → w ≠ 0 →
      ent curr a b = some w) := by
  unfold epcStep at h
  cases hl : lookups (nonzeroPos curr) (o.fit (gMul d curr)).2 with
  | none => rw [hl] at h; exact absurd h (by simp)
  | some pts =>
    rw [hl] at h
    simp only [Option.some_inj, Prod.mk.injEq] at h
    obtain ⟨hans, -, hcurr', -⟩ := h
    have hpts : ∀ p ∈ pts, ∃ v, ent curr p.1 p.2 = some v ∧ v ≠ 0 :=
      fun p hp => nonzeroPos_ent (lookups_mem hl p hp)
    constructor
    · intro a b hab
      have hmem : (a, b) ∈ pts := by
        by_contra hc
        rw [← hans, ent_gSets_not_mem hc, ent_gZeros] at hab
        by_cases hin : a < curr.length ∧ b < (curr.headD []).length
        · rw [if_pos hin, Option.some_inj] at hab
          exact one_ne_zero hab.symm
        · rw [if_neg hin] at hab
          exact Option.noConfusion hab
      obtain ⟨v, hv, hvne⟩ := hpts (a, b) hmem
      refine ⟨v, hv, hvne, ?_⟩
      rw [← hcurr']
      exact ent_gSets_mem hmem ⟨v, hv⟩
    · intro a b w hw hwne
      by_cases hmem : (a, b) ∈ pts
      · obtain ⟨v, hv, hvne⟩ := hpts (a, b) hmem
        rw [← hcurr', ent_gSets_mem hmem ⟨v, hv⟩, Option.some_inj] at hw
        exact absurd hw.symm hwne
      · rw [← hcurr', ent_gSets_not_mem hmem] at hw
        exact hw

/-- Disjointness relation between two recorded (mask, plane) pairs: no
pixel is set to 1 in both masks. -/
def MaskDisj (x y : Grid × Plane) : Prop :=
  ∀ a b : Nat, ¬(ent x.1 a b = some 1 ∧ ent y.1 a b = some 1)

theorem epcLoop_masks (o : FitOracle) (d : Grid) (stop : Int) (m : Grid) :
    ∀ (fuel : Nat) (curr : Grid) (count : Int)
      (acc l : List (Grid × Plane)),
      (∀ (a b : Nat) (w : ℚ), ent curr a b = some w → w ≠ 0 →
        ∃ u, ent m a b = some u ∧ u ≠ 0) →
      (∀ pr ∈ acc, ∀ a b : Nat, ent pr.1 a b = some 1 →
        ∃ u, ent m a b = some u ∧ u ≠ 0) →
      (∀ pr ∈ acc, ∀ a b : Nat, ent pr.1 a b = some 1 →
        ∀ w : ℚ, ent curr a b = some w → w = 0) →
      List.Pairwise MaskDisj acc →
      epcLoop o d stop fuel curr count acc = some l →
      List.Pairwise MaskDisj l ∧
      ∀ pr ∈ l, ∀ a b : Nat, ent pr.1 a b = some 1 →
        ∃ u, ent m a b = some u ∧ u ≠ 0
  | 0, curr, count, acc, l, _, _, _, _, h => by
    rw [epcLoop_zero] at h
    exact absurd h (by simp)
  | fuel + 1, curr, count, acc, l, hsub, haccm, haccz, hpw, h => by
    rw [epcLoop_succ] at h
    by_cases hc : stop ≤ count
    · rw [if_pos hc] at h
      cases hs : epcStep o d curr with
      | none =>
        rw [hs, Option.none_bind] at h
        exact absurd h (by simp)
      | some st =>
        obtain ⟨ans, pl, curr', n⟩ := st
        rw [hs, Option.some_bind] at h
        obtain ⟨hans, hcurr'⟩ := epcStep_inv hs
        refine epcLoop_masks o d stop m fuel curr' (count - n)
          (acc ++ [(ans, pl)]) l ?_ ?_ ?_ ?_ h
        · intro a b w hw hwne
          exact hsub a b w (hcurr' a b w hw hwne) hwne
        · intro pr hpr a b hpr1
          rcases List.mem_append.mp hpr with hpa | hpx
          · exact haccm pr hpa a b hpr1
          · rw [List.mem_singleton.mp hpx] at hpr1
            obtain ⟨v, hv, hvne, -⟩ := hans a b hpr1
            exact hsub a b v hv hvne
        · intro pr hpr a b hpr1 w hw
          rcases List.mem_append.mp hpr with hpa | hpx
          · by_contra hwne
            have := hcurr' a b w hw hwne
            exact hwne (haccz pr hpa a b hpr1 w this)
          · rw [List.mem_singleton.mp hpx] at hpr1
            obtain ⟨v, hv, hvne, hz⟩ := hans a b hpr1
            rw [hz, Option.some_inj] at hw
            exact hw.symm
        · rw [List.pairwise_append]
          refine ⟨hpw, List.pairwise_singleton _ _, ?_⟩
          intro x hx y hy a b hcontra
          rw [List.mem_singleton.mp hy] at hcontra
          obtain ⟨v, hv, hvne, -⟩ := hans a b hcontra.2
          exact hvne (haccz x hx a b hcontra.1 v hv)
    · rw [if_neg hc, Option.some_inj] at h
      subst h
      exact ⟨hpw, haccm⟩

/-- C10: in every terminating run of extract_planes_con the recorded
inlier masks are pairwise disjoint and each of them is a subset of the
support of the caller's input mask: an iteration sets only pixels that
are still nonzero in the working mask and zeroes them before the next
iteration. -/
theorem extract_planes_con_masks (o : FitOracle) (m d : Grid) (ss : Int)
    (t : ℚ) (fuel : Nat) (l : List (Grid × Plane))
    (h : extract_planes_con o m d ss t fuel = some l) :
    List.Pairwise MaskDisj l ∧
    ∀ pr ∈ l, ∀ a b : Nat, ent pr.1 a b = some 1 →
      ∃ u, ent m a b = some u ∧ u ≠ 0 := by
  refine epcLoop_masks o d (truncQ ((ss : ℚ) * t)) m fuel m ss [] l
    (fun a b w hw hwne => ⟨w, hw, hwne⟩)
    (fun pr hpr => absurd hpr (List.not_mem_nil pr))
    (fun pr hpr => absurd hpr (List.not_mem_nil pr))
    List.Pairwise.nil h

/-- Witness for C10 at a concrete terminating run. -/
theorem extract_planes_con_masks_w :
    List.Pairwise MaskDisj [(([[1]] : Grid), ((0, 0, 0, 1) : Plane))] ∧
    ∀ pr ∈ [(([[1]] : Grid), ((0, 0, 0, 1) : Plane))], ∀ a b : Nat,
      ent pr.1 a b = some 1 →
      ∃ u, ent ([[1]] : Grid) a b = some u ∧ u ≠ 0 :=
  extract_planes_con_masks fitO1 [[1]] [[5]] 0 1 3
    [([[1]], (0, 0, 0, 1))] run_fitO1_start0

/-- Heap-indexed variant of the extraction loop: numpy arrays are heap
objects, so the heap is a list of arrays and the working mask is the
array at reference r, written in place by List.set at each
iteration. -/
def epcLoopH (o : FitOracle) (depth : Grid) (stop : Int) :
    Nat → List Grid → Nat → Int → List (Grid × Plane) →
      Option (List (Grid × Plane) × List Grid)
  | 0, _, _, _, _ => none
  | fuel + 1, heap, r, count, acc =>
    if stop ≤ count then
      (epcStep o depth (heap.getD r [])).bind fun st =>
        epcLoopH o depth stop fuel (heap.set r st.2.2.1) r
          (count - st.2.2.2) (acc ++ [(st.1, st.2.1)])
    else some (acc, heap)

/-- Heap-level extract_planes_con: the caller's mask lives at reference
mr; copy.deepcopy allocates a fresh array holding the same value at
the end of the heap, and all loop writes target that fresh
reference. -/
def extract_planes_con_heap (o : FitOracle) (heap : List Grid) (mr : Nat)
    (depth : Grid) (ss : Int) (t : ℚ) (fuel : Nat) :
    Option (List (Grid × Plane) × List Grid) :=
  epcLoopH o depth (truncQ ((ss : ℚ) * t)) fuel
    (heap ++ [heap.getD mr []]) heap.length ss []

theorem epcLoopH_zero (o : FitOracle) (d : Grid) (stop : Int)
    (heap : List Grid) (r : Nat) (count : Int)
    (acc : List (Grid × Plane)) :
    epcLoopH o d stop 0 heap r count acc = none := rfl

theorem epcLoopH_succ (o : FitOracle) (d : Grid) (stop : Int) (fuel : Nat)
    (heap : List Grid) (r : Nat) (count : Int)
    (acc : List (Grid × Plane)) :
    epcLoopH o d stop (fuel + 1) heap r count acc =
      if stop ≤ count then
        (epcStep o d (heap.getD r [])).bind fun st =>
          epcLoopH o d stop fuel (heap.set r st.2.2.1) r
            (count - st.2.2.2) (acc ++ [(st.1, st.2.1)])
      else some (acc, heap) := rfl

theorem epcLoopH_frame (o : FitOracle) (d : Grid) (stop : Int) (N : Nat) :
    ∀ (fuel : Nat) (heap : List Grid) (r : Nat) (count : Int)
      (acc res : List (Grid × Plane)) (heap' : List Grid),
      N ≤ r →
      epcLoopH o d stop fuel heap r count acc = some (res, heap') →
      ∀ i : Nat, i < N → heap'[i]? = heap[i]?
  | 0, heap, r, count, acc, res, heap', _, h => by
    rw [epcLoopH_zero] at h
    exact absurd h (by simp)
  | fuel + 1, heap, r, count, acc, res, heap', hNr, h => by
    rw [epcLoopH_succ] at h
    by_cases hc : stop ≤ count
    · rw [if_pos hc] at h
      cases hs : epcStep o d (heap.getD r []) with
      | none =>
        rw [hs, Option.none_bind] at h
        exact absurd h (by simp)
      | some st =>
        rw [hs, Option.some_bind] at h
        intro i hi
        have := epcLoopH_frame o d stop N fuel (heap.set r st.2.2.1) r
          (count - st.2.2.2) (acc ++ [(st.1, st.2.1)]) res heap' hNr h
          i hi
        rw [this, List.getElem?_set_ne (by omega)]
    · rw [if_neg hc, Option.some_inj] at h
      injection h with h1 h2
      subst h2
      intro i _
      rfl

theorem epcLoopH_fst (o : FitOracle) (d : Grid) (stop : Int) :
    ∀ (fuel : Nat) (heap : List Grid) (r : Nat) (count : Int)
      (acc : List (Grid × Plane)), r < heap.length →
      (epcLoopH o d stop fuel heap r count acc).map Prod.fst =
        epcLoop o d stop fuel (heap.getD r []) count acc
  | 0, heap, r, count, acc, _ => by
    rw [epcLoopH_zero, epcLoop_zero]
    rfl
  | fuel + 1, heap, r, count, acc, hr => by
    rw [epcLoopH_succ, epcLoop_succ]
    by_cases hc : stop ≤ count
    · rw [if_pos hc, if_pos hc]
      cases hs : epcStep o d (heap.getD r []) with
      | none => rw [Option.none_bind, Option.none_bind]; rfl
      | some st =>
        rw [Option.some_bind, Option.some_bind]
        have hlen : r < (heap.set r st.2.2.1).length := by
          rw [List.length_set]
          exact hr
        have hget : (heap.set r st.2.2.1).getD r [] = st.2.2.1 := by
          rw [List.getD_eq_getElem?_getD, List.getElem?_set_self hr]
          rfl
        have := epcLoopH_fst o d stop fuel (heap.set r st.2.2.1) r
          (count - st.2.2.2) (acc ++ [(st.1, st.2.1)]) hlen
        rw [hget] at this
        exact this
    · rw [if_neg hc, if_neg hc]
      rfl

/-- C3: extract_planes_con never mutates the caller's mask array: the
defensive deep copy is allocated as a fresh heap object, all in-place
zeroing targets only that working copy, so on return every caller
array reference — in particular the mask argument at mr — still holds
its original value; moreover the computed result list coincides with
the value-level extract_planes_con run on the copied mask value. -/
theorem extract_planes_con_no_mutation (o : FitOracle) (heap : List Grid)
    (mr : Nat) (d : Grid) (ss : Int) (t : ℚ) (fuel : Nat) :
    (∀ (res : List (Grid × Plane)) (heap' : List Grid),
      extract_planes_con_heap o heap mr d ss t fuel = some (res, heap') →
      ∀ r : Nat, r < heap.length → heap'[r]? = heap[r]?) ∧
    (extract_planes_con_heap o heap mr d ss t fuel).map Prod.fst =
      extract_planes_con o (heap.getD mr []) d ss t fuel := by
  constructor
  · intro res heap' h r hr
    have := epcLoopH_frame o d (truncQ ((ss : ℚ) * t)) heap.length fuel
      (heap ++ [heap.getD mr []]) heap.length ss [] res heap'
      (le_refl heap.length) h r hr
    rw [this, List.getElem?_append_left hr]
  · have hlen : heap.length < (heap ++ [heap.getD mr []]).length := by
      rw [List.length_append]
      simp
    have hgd : (heap ++ [heap.getD mr []]).getD heap.length [] =
        heap.getD mr [] := by
      generalize heap.getD mr [] = c
      rw [List.getD_eq_getElem?_getD, List.getElem?_concat_length]
      rfl
    have := epcLoopH_fst o d (truncQ ((ss : ℚ) * t)) fuel
      (heap ++ [heap.getD mr []]) heap.length ss [] hlen
    rw [hgd] at this
    exact this

set_option synthInstance.maxSize 400 in
/-- Concrete heap run used by the C3 witness. -/
theorem run_heap_fitO1 :
    extract_planes_con_heap fitO1 [[[1]]] 0 [[5]] 1 1 2 =
      some ([([[1]], (0, 0, 0, 1))], [[[1]], [[0]]]) := by
  unfold extract_planes_con_heap
  rw [show truncQ (((1 : Int) : ℚ) * 1) = 1 by rw [mul_one, truncQ_intCast]]
  decide

/-- Witness for C3: after the concrete heap run, the caller's array at
reference 0 still holds its original value. -/
theorem extract_planes_con_no_mutation_w :
    ([[[1]], [[0]]] : List Grid)[0]? = ([[[1]]] : List Grid)[0]? :=
  (extract_planes_con_no_mutation fitO1 [[[1]]] 0 [[5]] 1 1 2).1
    [([[1]], (0, 0, 0, 1))] [[[1]], [[0]]] run_heap_fitO1 0 (by decide)

end RansacSpec
